import Mathlib

/-!
Verification development for the cw-storage layered key-value storage
library (namespaced prefixed storage, typed index entries, secondary-index
maintenance).  The Rust sources `prefix.rs`, `index.rs` and `bucket.rs` are
embedded shallowly below: byte strings are `List Nat`, the flat store is an
association list together with read/write counters, fallible code returns
`Except Fail`, and a Rust `panic!` is the dedicated `Fail.panicked` error
channel (distinct from the recoverable `Result`-style errors).
-/

/-- Byte strings (`Vec<u8>` / `&[u8]`); byte values are kept as `Nat`. -/
abbrev Bytes := List Nat

deriving instance DecidableEq for Except

set_option maxRecDepth 4000

/-- Failure channel.  `panicked` models a Rust `panic!` (process abort, not a
recoverable `Result` error); the other constructors model the recoverable
`cosmwasm::errors::Error` variants used by this library. -/
inductive Fail where
  | panicked (msg : String)
  | notFound (kind : String)
  | parseErr (kind : String)
  | contractErr (msg : String)
deriving DecidableEq, Repr

/-- The flat backing store plus an operation counter: `data` is the key/value
map (most recent binding first), `reads` counts `get` calls and `writes`
counts `set` calls made against the store. -/
structure StoreState where
  data : List (Bytes × Bytes)
  reads : Nat
  writes : Nat
deriving DecidableEq, Repr

def emptyStore : StoreState := ⟨[], 0, 0⟩

/-- First-binding lookup in the association list backing the store. -/
def mapGet (k : Bytes) : List (Bytes × Bytes) → Option Bytes
  | [] => none
  | (k', v) :: m => if k' = k then some v else mapGet k m

/-- `Storage::get`: one read against the flat store. -/
def sget (k : Bytes) (s : StoreState) : Option Bytes × StoreState :=
  ( mapGet k s.data, { s with reads := s.reads + 1 })

/-- `Storage::set`: one write against the flat store. -/
def sset (k v : Bytes) (s : StoreState) : StoreState :=
  { s with data := (k, v) :: s.data, writes := s.writes + 1 }

/-- `prefix.rs::length_prefix`: prepend the one-byte length; `panic!` when the
segment is longer than 255 bytes. -/
def length_prefix (ns : Bytes) : Except Fail Bytes :=
  if 255 < ns.length then .error (.panicked "only supports prefixes up to length 255")
  else .ok (ns.length :: ns)

/-- `prefix.rs::multi_length_prefix`: concatenate the one-byte-length encoding
of every segment in order; `panic!` at the first segment longer than 255. -/
def multi_length_prefix : List Bytes → Except Fail Bytes
  | [] => .ok []
  | p :: ps =>
    if 255 < p.length then .error (.panicked "only supports prefixes up to length 255")
    else
      match multi_length_prefix ps with
      | .error e => .error e
      | .ok rest => .ok ((p.length :: p) ++ rest)

/-- The flat key the prefixed-storage layer touches for a namespace chain and
a user key suffix: the multi-segment encoding followed by the raw suffix. -/
def encodePS (chain : List Bytes) (key : Bytes) : Except Fail Bytes :=
  match multi_length_prefix chain with
  | .error e => .error e
  | .ok m => .ok (m ++ key)

/-- `PrefixedStorage::get` / `ReadonlyPrefixedStorage::get` for a view whose
already-computed prefix bytes are `pfx`: read `pfx ++ key`. -/
def psGet (pfx key : Bytes) (s : StoreState) : Option Bytes × StoreState :=
  sget (pfx ++ key) s

/-- `PrefixedStorage::set` for a view whose already-computed prefix bytes are
`pfx`: write `pfx ++ key`. -/
def psSet (pfx key value : Bytes) (s : StoreState) : StoreState :=
  sset (pfx ++ key) value s

/-- Modelled from the spec: `namespace_helpers::key_prefix` is not under
`src/`; §4.1 of the spec describes a length-prefixed namespace encoding, and
the in-repo `build_index` test together with the spec's §8 scenario pin the
concrete layout to a two-byte big-endian length (`key_prefix("foo") =
[0, 3, 'f', 'o', 'o']`), with an over-long namespace being a fatal error. -/
def key_prefix (ns : Bytes) : Except Fail Bytes :=
  if 65535 < ns.length then .error (.panicked "only supports namespaces up to length 0xFFFF")
  else .ok (ns.length / 256 :: ns.length % 256 :: ns)

/-- Modelled from the spec: `namespace_helpers::get_with_prefix` is not under
`src/`; per §4.2 it reads the wrapped store at the prefix bytes followed by
the caller's key. -/
def get_with_prefix (pfx key : Bytes) (s : StoreState) : Option Bytes × StoreState :=
  sget (pfx ++ key) s

/-- Modelled from the spec: `namespace_helpers::set_with_prefix` is not under
`src/`; per §4.2 it writes the wrapped store at the prefix bytes followed by
the caller's key. -/
def set_with_prefix (pfx key value : Bytes) (s : StoreState) : StoreState :=
  sset (pfx ++ key) value s

/-- Modelled from the spec: the serialization codec is an external
collaborator (§1, §6): `ser` may fail on pathological values, `deser` fails
on malformed bytes, and `kind` is the type name reported by NotFound errors
(`NamedType` in the source). -/
structure Codec (α : Type) where
  kind : String
  ser : α → Except Fail Bytes
  deser : Bytes → Except Fail α

/-- Modelled from the spec: `type_helpers::must_deserialize` is not under
`src/`; per §4.3/§7 an absent value is a NotFound-class error carrying the
type's name, and present bytes are decoded by the codec. -/
def must_deserialize (c : Codec α) : Option Bytes → Except Fail α
  | none => .error (.notFound c.kind)
  | some bz => c.deser bz

/-- Modelled from the spec: `type_helpers::may_deserialize` is not under
`src/`; per §4.3/§7 an absent value is `none` (not an error), and present
bytes are decoded by the codec. -/
def may_deserialize (c : Codec α) : Option Bytes → Except Fail (Option α)
  | none => .ok none
  | some bz =>
    match c.deser bz with
    | .error e => .error e
    | .ok v => .ok (some v)

/-- Modelled from the spec: `typed::TypedStorage::load` is not under `src/`;
per §4.3 it reads the raw (already namespaced) key and must-deserializes,
failing with NotFound when the key is absent. -/
def typedLoad (c : Codec α) (key : Bytes) (s : StoreState) : Except Fail α × StoreState :=
  let r := sget key s
  ( must_deserialize c r.1, r.2)

/-- Modelled from the spec: `typed::TypedStorage::may_load` is not under
`src/`; per §4.3 it reads the raw key and returns `none` when absent. -/
def typedMayLoad (c : Codec α) (key : Bytes) (s : StoreState) :
    Except Fail (Option α) × StoreState :=
  let r := sget key s
  ( may_deserialize c r.1, r.2)

/-- Modelled from the spec: `typed::TypedStorage::save` is not under `src/`;
per §4.3 it serializes and writes unconditionally, never checking prior
state (no write happens when serialization fails). -/
def typedSave (c : Codec α) (key : Bytes) (value : α) (s : StoreState) :
    Except Fail Unit × StoreState :=
  match c.ser value with
  | .error e => (.error e, s)
  | .ok bz => (.ok (), sset key bz s)

/-- `index.rs::Index`: the precomputed namespace prefix bytes (field `prefix`
in the source; `prefix` is a reserved word in Lean) and the caller-supplied
index function. -/
structure Index (T : Type) where
  pfx : Bytes
  action : T → Bytes

/-- `index.rs::index`: build an `Index` from a namespace (via `key_prefix`,
which is fatal on over-long namespaces) and an index function. -/
def index (ns : Bytes) (action : T → Bytes) : Except Fail (Index T) :=
  match key_prefix ns with
  | .error e => .error e
  | .ok p => .ok ⟨p, action⟩

/-- `index.rs::Index::calc_key`: the namespace prefix followed by the index
function's value. -/
def calc_key (idx : Index T) (item : T) : Bytes :=
  idx.pfx ++ idx.action item

/-- `index.rs::IndexEntry`: the persisted list of primary keys having a given
index value. -/
structure IndexEntry where
  refs : List Bytes
deriving DecidableEq, Repr

/-- Serialization of an `IndexEntry`'s reference list: each reference is
length-prefixed.  This is the concrete executable stand-in for the external
serde codec (§1 treats the codec as an external collaborator). -/
def encodeRefs : List Bytes → Bytes
  | [] => []
  | r :: rs => (r.length :: r) ++ encodeRefs rs

/-- Fuelled worker for `decodeRefs`; the fuel only makes the recursion
structural, `decodeRefs` always supplies enough of it. -/
def decodeRefsF : Nat → Bytes → Option (List Bytes)
  | _, [] => some []
  | 0, _ :: _ => none
  | fuel + 1, n :: rest =>
    if n ≤ rest.length then
      match decodeRefsF fuel (rest.drop n) with
      | none => none
      | some rs => some (rest.take n :: rs)
    else none

/-- Inverse of `encodeRefs`; fails (`none`) on malformed bytes. -/
def decodeRefs (b : Bytes) : Option (List Bytes) :=
  decodeRefsF b.length b

/-- The codec used for `IndexEntry` values (serde in the source, the concrete
executable encoding above here); total on serialization, fails with a
Parse-class error on malformed bytes. -/
def entryCodec : Codec IndexEntry where
  kind := "IndexEntry"
  ser := fun e => .ok (encodeRefs e.refs)
  deser := fun bz =>
    match decodeRefs bz with
    | none => .error (.parseErr "IndexEntry")
    | some rs => .ok ⟨rs⟩

/-- `index.rs::remove_key`: must-load the entry at the index key, drop every
occurrence of `pk` from its references, save it back.  An absent entry makes
the load fail. -/
def remove_key (idxkey pk : Bytes) (s : StoreState) : Except Fail Unit × StoreState :=
  match typedLoad entryCodec idxkey s with
  | (.error e, s') => (.error e, s')
  | (.ok entry, s') =>
    typedSave entryCodec idxkey ⟨ entry.refs.filter (fun r => decide (r ≠ pk))⟩ s'

/-- `index.rs::add_key`: may-load the entry at the index key (defaulting to
the empty entry), append `pk` to its references, save it back. -/
def add_key (idxkey pk : Bytes) (s : StoreState) : Except Fail Unit × StoreState :=
  match typedMayLoad entryCodec idxkey s with
  | (.error e, s') => (.error e, s')
  | (.ok mentry, s') =>
    let entry := mentry.getD ⟨[]⟩
    typedSave entryCodec idxkey ⟨ entry.refs ++ [pk]⟩ s'

/-- `index.rs::write_index`: compute old/new index keys; equal keys are a
no-op, otherwise remove `pk` from the old entry (when an old value exists)
and add it to the new one. -/
def write_index (idx : Index T) (pk : Bytes) (old_val : Option T) (new_val : T)
    (s : StoreState) : Except Fail Unit × StoreState :=
  let old_idx := old_val.map (fun o => calc_key idx o)
  let new_idx := calc_key idx new_val
  match old_idx with
  | some o =>
    if o = new_idx then (.ok (), s)
    else
      match remove_key o pk s with
      | (.error e, s') => (.error e, s')
      | (.ok _, s') => add_key new_idx pk s'
  | none => add_key new_idx pk s

/-- The `IndexEntry` currently persisted at a flat key, if any well-formed one
is there (observation helper for stating the index claims). -/
def entryAt (k : Bytes) (s : StoreState) : Option IndexEntry :=
  match mapGet k s.data with
  | none => none
  | some bz =>
    match decodeRefs bz with
    | none => none
    | some rs => some ⟨rs⟩

/-- `bucket.rs::Bucket::save`: resolve the namespace prefix (fatal on
over-long namespaces, done by `Bucket::new` in the source), serialize, write
under the prefixed key. -/
def bucketSave (c : Codec T) (ns key : Bytes) (value : T) (s : StoreState) :
    Except Fail Unit × StoreState :=
  match key_prefix ns with
  | .error e => (.error e, s)
  | .ok p =>
    match c.ser value with
    | .error e => (.error e, s)
    | .ok bz => (.ok (), set_with_prefix p key bz s)

/-- `bucket.rs::Bucket::load`: read the prefixed key and must-deserialize
(NotFound when absent). -/
def bucketLoad (c : Codec T) (ns key : Bytes) (s : StoreState) :
    Except Fail T × StoreState :=
  match key_prefix ns with
  | .error e => (.error e, s)
  | .ok p =>
    let r := get_with_prefix p key s
    ( must_deserialize c r.1, r.2)

/-- `bucket.rs::Bucket::may_load`: read the prefixed key and may-deserialize
(`none` when absent). -/
def bucketMayLoad (c : Codec T) (ns key : Bytes) (s : StoreState) :
    Except Fail (Option T) × StoreState :=
  match key_prefix ns with
  | .error e => (.error e, s)
  | .ok p =>
    let r := get_with_prefix p key s
    ( may_deserialize c r.1, r.2)

/-- `bucket.rs::Bucket::update`: load the existing value (erroring when
absent), apply the action, save the result and return it; any failure stops
the sequence at that point. -/
def bucketUpdate (c : Codec T) (ns key : Bytes) (action : T → Except Fail T)
    (s : StoreState) : Except Fail T × StoreState :=
  match bucketLoad c ns key s with
  | (.error e, s') => (.error e, s')
  | (.ok input, s') =>
    match action input with
    | .error e => (.error e, s')
    | .ok output =>
      match bucketSave c ns key output s' with
      | (.error e, s'') => (.error e, s'')
      | (.ok _, s'') => (.ok output, s'')

/-- `u32::to_be_bytes`: the four big-endian bytes of a 32-bit age. -/
def u32be (n : Nat) : Bytes :=
  [n / 16777216 % 256, n / 65536 % 256, n / 256 % 256, n % 256]

/-- The `Person` record of the `build_index` test. -/
structure Person where
  name : String
  age : Nat

/-- `n` consecutive fresh insertions of the same record value through
`write_index` (old value absent each time), stopping at the first failure. -/
def addTimes (idx : Index T) (pk : Bytes) (v : T) : Nat → StoreState →
    Except Fail Unit × StoreState
  | 0, s => (.ok (), s)
  | n + 1, s =>
    match write_index idx pk none v s with
    | (.ok _, s') => addTimes idx pk v n s'
    | r => r


/-! Helper lemmas about the embedding. -/

lemma length_prefix_ok {ns p : Bytes} (h : length_prefix ns = .ok p) :
    ns.length ≤ 255 ∧ p = ns.length :: ns := by
  by_cases hl : 255 < ns.length
  · simp [ length_prefix, hl] at h
  · simp [ length_prefix, hl] at h
    exact ⟨by omega, h.symm⟩

lemma multi_ok_cons {p m : Bytes} {ps : List Bytes}
    (h : multi_length_prefix (p :: ps) = .ok m) :
    p.length ≤ 255 ∧ ∃ rest, multi_length_prefix ps = .ok rest ∧ m = (p.length :: p) ++ rest := by
  by_cases hp : 255 < p.length
  · simp [ multi_length_prefix, hp] at h
  · simp only [ multi_length_prefix, hp, if_false] at h
    cases hm : multi_length_prefix ps with
    | error e => rw [hm] at h; cases h
    | ok rest =>
      rw [hm] at h
      injection h with h
      exact ⟨by omega, rest, rfl, h.symm⟩

lemma key_prefix_ok {ns p : Bytes} (h : key_prefix ns = .ok p) :
    ns.length ≤ 65535 ∧ p = ns.length / 256 :: ns.length % 256 :: ns := by
  by_cases hl : 65535 < ns.length
  · simp [ key_prefix, hl] at h
  · simp [ key_prefix, hl] at h
    exact ⟨by omega, h.symm⟩

lemma key_prefix_append_ne {ns ns2 p p2 : Bytes} (k : Bytes)
    (hp : key_prefix ns = .ok p) (hp2 : key_prefix ns2 = .ok p2)
    (hne : ns ≠ ns2) : p ++ k ≠ p2 ++ k := by
  obtain ⟨-, rfl⟩ := key_prefix_ok hp
  obtain ⟨-, rfl⟩ := key_prefix_ok hp2
  intro h
  have hlen := congrArg List.length h
  simp [List.length_append] at hlen
  obtain ⟨hcons, -⟩ := List.append_inj h (by simp; omega)
  injection hcons with h1 htail
  injection htail with h2 hns
  exact hne hns

lemma mapGet_head (k v : Bytes) (m : List (Bytes × Bytes)) :
    mapGet k ((k, v) :: m) = some v := by
  simp [mapGet]

lemma mapGet_skip {k k' : Bytes} (v : Bytes) (m : List (Bytes × Bytes)) (h : k' ≠ k) :
    mapGet k ((k', v) :: m) = mapGet k m := by
  simp [mapGet, h]

lemma decodeRefsF_encodeRefs :
    ∀ (rs : List Bytes) (fuel : Nat), (encodeRefs rs).length ≤ fuel →
      decodeRefsF fuel (encodeRefs rs) = some rs := by
  intro rs
  induction rs with
  | nil => intro fuel h; cases fuel <;> simp [encodeRefs, decodeRefsF]
  | cons r rs ih =>
    intro fuel h
    simp only [encodeRefs, List.cons_append, List.length_cons, List.length_append] at h ⊢
    cases fuel with
    | zero => omega
    | succ f =>
      rw [decodeRefsF]
      have hle : r.length ≤ (r ++ encodeRefs rs).length := by simp
      rw [if_pos hle, List.drop_left, List.take_left, ih f (by omega)]

lemma decodeRefs_encodeRefs (rs : List Bytes) : decodeRefs (encodeRefs rs) = some rs :=
  decodeRefsF_encodeRefs rs _ le_rfl

lemma calc_key_ne {T : Type} {idx : Index T} {a b : T} (h : idx.action a ≠ idx.action b) :
    calc_key idx a ≠ calc_key idx b := by
  simp only [calc_key]
  intro hc
  exact h (List.append_cancel_left hc)

lemma add_key_fresh (k pk : Bytes) (s : StoreState) (h : mapGet k s.data = none) :
    add_key k pk s = (.ok (),
      { data := (k, encodeRefs [pk]) :: s.data,
        reads := s.reads + 1, writes := s.writes + 1 }) := by
  simp [add_key, typedMayLoad, sget, h, may_deserialize, entryCodec, typedSave, sset]

lemma add_key_existing (k pk : Bytes) (rs : List Bytes) (s : StoreState)
    (h : mapGet k s.data = some (encodeRefs rs)) :
    add_key k pk s = (.ok (),
      { data := (k, encodeRefs (rs ++ [pk])) :: s.data,
        reads := s.reads + 1, writes := s.writes + 1 }) := by
  simp [add_key, typedMayLoad, sget, h, may_deserialize, entryCodec,
    decodeRefs_encodeRefs, typedSave, sset]

lemma remove_key_existing (k pk : Bytes) (rs : List Bytes) (s : StoreState)
    (h : mapGet k s.data = some (encodeRefs rs)) :
    remove_key k pk s = (.ok (),
      { data := (k, encodeRefs (rs.filter (fun r => decide (r ≠ pk)))) :: s.data,
        reads := s.reads + 1, writes := s.writes + 1 }) := by
  simp [remove_key, typedLoad, sget, h, must_deserialize, entryCodec,
    decodeRefs_encodeRefs, typedSave, sset]

lemma remove_key_absent (k pk : Bytes) (s : StoreState) (h : mapGet k s.data = none) :
    remove_key k pk s = (.error (.notFound "IndexEntry"), { s with reads := s.reads + 1 }) := by
  simp [remove_key, typedLoad, sget, h, must_deserialize, entryCodec]

lemma write_index_none_eq {T : Type} (idx : Index T) (pk : Bytes) (nv : T) (s : StoreState) :
    write_index idx pk none nv s = add_key ( calc_key idx nv) pk s := rfl

lemma write_index_some_ne {T : Type} (idx : Index T) (pk : Bytes) (ov nv : T) (s : StoreState)
    (h : calc_key idx ov ≠ calc_key idx nv) :
    write_index idx pk (some ov) nv s =
      match remove_key ( calc_key idx ov) pk s with
      | (.error e, s') => (.error e, s')
      | (.ok _, s') => add_key ( calc_key idx nv) pk s' := by
  simp [write_index, h]

lemma filter_ne_replicate (pk : Bytes) (m : Nat) :
    (List.replicate m pk).filter (fun r => decide (r ≠ pk)) = [] := by
  induction m with
  | zero => rfl
  | succ m ih => simp [List.replicate_succ, List.filter, ih]

lemma multi_append_inj :
    ∀ (c1 c2 : List Bytes) (s1 s2 m1 m2 : Bytes),
      c1.length = c2.length → multi_length_prefix c1 = .ok m1 →
      multi_length_prefix c2 = .ok m2 → m1 ++ s1 = m2 ++ s2 →
      c1 = c2 ∧ s1 = s2 := by
  intro c1
  induction c1 with
  | nil =>
    intro c2 s1 s2 m1 m2 hlen h1 h2 heq
    cases c2 with
    | nil =>
      injection h1 with h1
      injection h2 with h2
      subst h1; subst h2
      exact ⟨rfl, heq⟩
    | cons q qs => simp at hlen
  | cons p ps ih =>
    intro c2 s1 s2 m1 m2 hlen h1 h2 heq
    cases c2 with
    | nil => simp at hlen
    | cons q qs =>
      obtain ⟨hp, r1, hr1, rfl⟩ := multi_ok_cons h1
      obtain ⟨hq, r2, hr2, rfl⟩ := multi_ok_cons h2
      simp only [List.cons_append, List.append_assoc, List.cons.injEq] at heq
      obtain ⟨hlen2, htail⟩ := heq
      obtain ⟨hpq, hrest⟩ := List.append_inj htail hlen2
      obtain ⟨hps, hs⟩ := ih qs s1 s2 r1 r2 (by simpa using hlen) hr1 hr2 hrest
      exact ⟨by rw [hpq, hps], hs⟩

/-- C1 counterexample: the flat-key encoding is not injective over arbitrary
(namespace chain, suffix) pairs — a suffix may replay the length byte and
bytes of a further segment.  Chain `["foo"]` with suffix `[3] ++ "bar"` and
chain `["foo", "bar"]` with the empty suffix encode to the same byte string
although the chains differ. -/
theorem encode_not_injective_across_chain_lengths :
    encodePS [[102, 111, 111]] [3, 98, 97, 114]
        = encodePS [[102, 111, 111], [98, 97, 114]] []
      ∧ [[102, 111, 111]] ≠ [[102, 111, 111], [98, 97, 114]] :=
  ⟨by decide, by decide⟩

/-- C1 (amended): restricted to namespace chains with the same number of
segments, the flat-key encoding is injective: if encoding chain `c1` with
suffix `s1` and chain `c2` with suffix `s2` both succeed and produce the same
byte string, then `c1 = c2` and `s1 = s2`.  (In particular
`encode(["foo"], "bar")` and `encode(["fo"], "obar")` differ.)  Without the
equal-segment-count restriction injectivity fails, as the counterexample
shows. -/
theorem encode_injective_same_chain_length (c1 c2 : List Bytes) (s1 s2 k : Bytes)
    (hlen : c1.length = c2.length)
    (h1 : encodePS c1 s1 = .ok k) (h2 : encodePS c2 s2 = .ok k) :
    c1 = c2 ∧ s1 = s2 := by
  unfold encodePS at h1 h2
  cases hm1 : multi_length_prefix c1 with
  | error e => rw [hm1] at h1; cases h1
  | ok m1 =>
    cases hm2 : multi_length_prefix c2 with
    | error e => rw [hm2] at h2; cases h2
    | ok m2 =>
      rw [hm1] at h1
      rw [hm2] at h2
      injection h1 with h1
      injection h2 with h2
      exact multi_append_inj c1 c2 s1 s2 m1 m2 hlen hm1 hm2 (by rw [h1, h2])

/-- Witness for C1: the injectivity theorem applies at the concrete encoding
`[1, 5, 7]` of chain `[[5]]` with suffix `[7]`. -/
theorem encode_injective_same_chain_length_witness :
    ([[5]] : List Bytes) = [[5]] ∧ ([7] : Bytes) = [7] :=
  encode_injective_same_chain_length [[5]] [[5]] [7] [7] [1, 5, 7] rfl (by decide) (by decide)

lemma multi_panics_of_mem :
    ∀ (chain : List Bytes) (seg : Bytes), seg ∈ chain → 255 < seg.length →
      multi_length_prefix chain
        = .error (.panicked "only supports prefixes up to length 255") := by
  intro chain
  induction chain with
  | nil => intro seg h; cases h
  | cons p ps ih =>
    intro seg hmem hlen
    by_cases hp : 255 < p.length
    · simp [ multi_length_prefix, hp]
    · rcases List.mem_cons.1 hmem with rfl | h2
      · omega
      · simp [ multi_length_prefix, hp, ih seg h2 hlen]

/-- C5 counterexample: encoding a 256-byte namespace segment aborts through
the `panic!` channel (modelled as `Fail.panicked`), it is not surfaced as a
recoverable validation error as the claim states. -/
theorem oversize_segment_panics :
    length_prefix (List.replicate 256 0)
      = .error (.panicked "only supports prefixes up to length 255") := by decide

/-- C5 (amended): encoding a namespace segment longer than 255 bytes fails
fast with a runtime panic carrying an explicit message — both for the single
segment and for any chain containing it — and never silently truncates the
length byte. -/
theorem oversize_segment_always_panics (seg : Bytes) (chain : List Bytes)
    (hmem : seg ∈ chain) (hlen : 255 < seg.length) :
    length_prefix seg = .error (.panicked "only supports prefixes up to length 255")
      ∧ multi_length_prefix chain
        = .error (.panicked "only supports prefixes up to length 255") := by
  exact ⟨by simp [ length_prefix, hlen], multi_panics_of_mem chain seg hmem hlen⟩

/-- Witness for C5 (amended): the panic theorem applies to the 256-byte
all-zero segment inside a singleton chain. -/
theorem oversize_segment_always_panics_witness :
    length_prefix (List.replicate 256 0)
        = .error (.panicked "only supports prefixes up to length 255")
      ∧ multi_length_prefix [List.replicate 256 0]
        = .error (.panicked "only supports prefixes up to length 255") :=
  oversize_segment_always_panics (List.replicate 256 0) [List.replicate 256 0]
    (List.mem_singleton.2 rfl) (by simp)

/-- C4: when the record's old value is present and the index function gives
the same bytes for old and new value, `write_index` returns success and the
entire store state — data, read counter and write counter — is returned
unchanged: zero reads and zero writes happen beyond the two index-function
evaluations. -/
theorem write_index_noop_when_index_unchanged {T : Type} (idx : Index T) (pk : Bytes)
    (o n : T) (s : StoreState) (h : idx.action o = idx.action n) :
    write_index idx pk (some o) n s = (.ok (), s) := by
  simp [write_index, calc_key, h]

/-- Witness for C4: the no-op theorem applies to a concrete index over an
identity index function with equal old and new values. -/
theorem write_index_noop_witness :
    write_index ⟨[0, 1, 5], fun b => b⟩ [1] (some [2]) [2] emptyStore
      = (.ok (), emptyStore) :=
  write_index_noop_when_index_unchanged ⟨[0, 1, 5], fun b => b⟩ [1] [2] [2] emptyStore rfl

/-- C3 counterexample: with the old index entry absent from the store,
`write_index` on an old value whose index bytes differ from the new ones does
not succeed — `remove_key` must-loads the old entry and the absent key makes
the whole call return a NotFound error instead of adding `pk` under the new
index value. -/
theorem write_index_absent_old_counterexample :
    (write_index ⟨[0, 3, 102, 111, 111], fun b => b⟩ [1] (some [2]) [3] emptyStore).1
      = .error (.notFound "IndexEntry") := by decide

/-- C3 (amended): when the old value's index bytes differ from the new ones
and the store has no entry at the old index key, `write_index` fails with the
NotFound error raised by `remove_key`'s must-load, performing one read and no
write — the removal does not tolerate absence as a no-op, and `pk` is never
added under the new index value. -/
theorem write_index_errors_on_absent_old_entry {T : Type} (idx : Index T) (pk : Bytes)
    (o n : T) (s : StoreState) (hne : idx.action o ≠ idx.action n)
    (habs : mapGet ( calc_key idx o) s.data = none) :
    write_index idx pk (some o) n s
      = (.error (.notFound "IndexEntry"), { s with reads := s.reads + 1 }) := by
  rw [write_index_some_ne idx pk o n s (calc_key_ne hne),
    remove_key_absent ( calc_key idx o) pk s habs]

/-- Witness for C3 (amended): the error theorem applies to a concrete index
with identity index function, old value `[4]`, new value `[6]`, on the empty
store. -/
theorem write_index_errors_on_absent_old_entry_witness :
    write_index ⟨[0, 1, 9], fun b => b⟩ [2] (some [4]) [6] emptyStore
      = (.error (.notFound "IndexEntry"), { emptyStore with reads := 1 }) :=
  write_index_errors_on_absent_old_entry ⟨[0, 1, 9], fun b => b⟩ [2] [4] [6] emptyStore
    (by decide) rfl

/-- C6: for an index over namespace "foo" whose index function is the
four-byte big-endian age, the flat storage key computed for a record with age
127 is exactly `[0, 3, 'f', 'o', 'o', 0, 0, 0, 127]`. -/
theorem build_index_scenario_key :
    (index [102, 111, 111] (fun p : Person => u32be p.age)).map
        (fun idx => calc_key idx ⟨"Fred", 127⟩)
      = .ok [0, 3, 102, 111, 111, 0, 0, 0, 127] := by decide

/-- C8: nesting is equivalent to a single chain encoding.  For any two
segments whose single-level encodings succeed, the two-level chain encoding
is their concatenation, and a `get` or `set` through a view nested over
another view (inner prefix `pb` over outer prefix `pa`) touches exactly the
same flat key — byte for byte, reads and writes included — as the same
operation through the single multilevel view; moreover, for every chain the
multi-segment encoding is the single-segment encoding of the head followed by
the encoding of the tail, errors included. -/
theorem nested_views_touch_same_flat_key (a b key v : Bytes) (s : StoreState)
    (pa pb : Bytes) (ha : length_prefix a = .ok pa) (hb : length_prefix b = .ok pb) :
    multi_length_prefix [a, b] = .ok (pa ++ pb)
      ∧ psGet (pa ++ pb) key s = psGet pa (pb ++ key) s
      ∧ psSet (pa ++ pb) key v s = psSet pa (pb ++ key) v s
      ∧ ∀ (seg : Bytes) (chain : List Bytes),
          multi_length_prefix (seg :: chain)
            = ( length_prefix seg).bind
                (fun ps => Except.map (fun rest => ps ++ rest) ( multi_length_prefix chain)) := by
  obtain ⟨ha255, rfl⟩ := length_prefix_ok ha
  obtain ⟨hb255, rfl⟩ := length_prefix_ok hb
  refine ⟨?_, ?_, ?_, ?_⟩
  · simp [ multi_length_prefix, Nat.not_lt.2 ha255, Nat.not_lt.2 hb255]
  · simp [psGet, List.append_assoc]
  · simp [psSet, List.append_assoc]
  · intro seg chain
    by_cases hp : 255 < seg.length
    · simp [ multi_length_prefix, length_prefix, hp, Except.bind]
    · cases hm : multi_length_prefix chain with
      | error e => simp [ multi_length_prefix, length_prefix, hp, hm, Except.bind, Except.map]
      | ok rest => simp [ multi_length_prefix, length_prefix, hp, hm, Except.bind, Except.map]

/-- Witness for C8: the nesting-equivalence theorem applies to the concrete
segments "foo" and "bar", giving the chain encoding as the concatenation of
the two single-segment encodings. -/
theorem nested_views_touch_same_flat_key_witness :
    multi_length_prefix [[102, 111, 111], [98, 97, 114]]
      = .ok ([3, 102, 111, 111] ++ [3, 98, 97, 114]) :=
  (nested_views_touch_same_flat_key [102, 111, 111] [98, 97, 114] [] [] emptyStore
    [3, 102, 111, 111] [3, 98, 97, 114] rfl rfl).1

/-- C2: starting from a store with no entry at either index value's key,
`write_index(pk, None, new)` succeeds and leaves the entry at
`index_fn(new)`'s key holding `pk` exactly once; a subsequent
`write_index(pk, Some(new), newer)` with differing index bytes succeeds,
after which the entry at the old index key no longer contains `pk` and the
entry at the new index key holds it exactly once. -/
theorem write_index_add_then_move {T : Type} (idx : Index T) (pk : Bytes) (a b : T)
    (s0 : StoreState)
    (ha : mapGet ( calc_key idx a) s0.data = none)
    (hb : mapGet ( calc_key idx b) s0.data = none)
    (hne : idx.action a ≠ idx.action b) :
    ∃ s1 s2,
      write_index idx pk none a s0 = (.ok (), s1)
      ∧ (∃ e1, entryAt ( calc_key idx a) s1 = some e1 ∧ e1.refs.count pk = 1)
      ∧ write_index idx pk (some a) b s1 = (.ok (), s2)
      ∧ (∃ e2, entryAt ( calc_key idx a) s2 = some e2 ∧ pk ∉ e2.refs)
      ∧ (∃ e3, entryAt ( calc_key idx b) s2 = some e3 ∧ e3.refs.count pk = 1) := by
  have hk : calc_key idx a ≠ calc_key idx b := calc_key_ne hne
  refine ⟨⟨( calc_key idx a, encodeRefs [pk]) :: s0.data, s0.reads + 1, s0.writes + 1⟩,
    ⟨( calc_key idx b, encodeRefs [pk]) :: ( calc_key idx a, encodeRefs []) ::
        ( calc_key idx a, encodeRefs [pk]) :: s0.data, s0.reads + 3, s0.writes + 3⟩,
    ?_, ?_, ?_, ?_, ?_⟩
  · rw [write_index_none_eq, add_key_fresh _ pk s0 ha]
  · refine ⟨⟨[pk]⟩, ?_, by simp⟩
    simp [entryAt, mapGet_head, decodeRefs_encodeRefs]
  · have hrm : remove_key ( calc_key idx a) pk
        ⟨( calc_key idx a, encodeRefs [pk]) :: s0.data, s0.reads + 1, s0.writes + 1⟩
        = (.ok (), ⟨( calc_key idx a, encodeRefs []) ::
            ( calc_key idx a, encodeRefs [pk]) :: s0.data, s0.reads + 2, s0.writes + 2⟩) := by
      rw [remove_key_existing _ pk [pk] _ (mapGet_head _ _ _)]
      simp [List.filter]
    have hget : mapGet ( calc_key idx b)
        (( calc_key idx a, encodeRefs []) :: ( calc_key idx a, encodeRefs [pk]) :: s0.data)
        = none := by
      rw [mapGet_skip _ _ hk, mapGet_skip _ _ hk]
      exact hb
    have hadd := add_key_fresh ( calc_key idx b) pk
      ⟨( calc_key idx a, encodeRefs []) :: ( calc_key idx a, encodeRefs [pk]) :: s0.data,
        s0.reads + 2, s0.writes + 2⟩ hget
    rw [write_index_some_ne idx pk a b _ hk, hrm]
    exact hadd
  · refine ⟨⟨[]⟩, ?_, by simp⟩
    simp [entryAt, mapGet_skip _ _ hk.symm, mapGet_head, decodeRefs_encodeRefs]
  · refine ⟨⟨[pk]⟩, ?_, by simp⟩
    simp [entryAt, mapGet_head, decodeRefs_encodeRefs]

/-- Witness for C2: the add-then-move theorem applies to a concrete identity
index on the empty store. -/
theorem write_index_add_then_move_witness :
    ∃ s1 s2,
      write_index (⟨[0, 3], fun x => x⟩ : Index Bytes) [7] none [2] emptyStore = (.ok (), s1)
      ∧ (∃ e1, entryAt [0, 3, 2] s1 = some e1 ∧ e1.refs.count [7] = 1)
      ∧ write_index (⟨[0, 3], fun x => x⟩ : Index Bytes) [7] (some [2]) [3] s1 = (.ok (), s2)
      ∧ (∃ e2, entryAt [0, 3, 2] s2 = some e2 ∧ [7] ∉ e2.refs)
      ∧ (∃ e3, entryAt [0, 3, 3] s2 = some e3 ∧ e3.refs.count [7] = 1) :=
  write_index_add_then_move ⟨[0, 3], fun x => x⟩ [7] [2] [3] emptyStore rfl rfl (by decide)

lemma addTimes_grow {T : Type} (idx : Index T) (pk : Bytes) (v : T) :
    ∀ (n : Nat) (s : StoreState) (rs : List Bytes),
      mapGet ( calc_key idx v) s.data = some (encodeRefs rs) →
      ∃ s', addTimes idx pk v n s = (.ok (), s')
        ∧ mapGet ( calc_key idx v) s'.data = some (encodeRefs (rs ++ List.replicate n pk))
        ∧ ∀ k, k ≠ calc_key idx v → mapGet k s'.data = mapGet k s.data := by
  intro n
  induction n with
  | zero =>
    intro s rs h
    exact ⟨s, rfl, by simpa using h, fun k _ => rfl⟩
  | succ n ih =>
    intro s rs h
    have hadd := add_key_existing ( calc_key idx v) pk rs s h
    obtain ⟨s', h1, h2, h3⟩ := ih
      ⟨( calc_key idx v, encodeRefs (rs ++ [pk])) :: s.data, s.reads + 1, s.writes + 1⟩
      (rs ++ [pk]) (mapGet_head _ _ _)
    refine ⟨s', ?_, ?_, ?_⟩
    · show (match write_index idx pk none v s with
        | (.ok _, s1) => addTimes idx pk v n s1
        | r => r) = (.ok (), s')
      rw [write_index_none_eq, hadd]
      exact h1
    · rw [h2, List.append_assoc]
      have : [pk] ++ List.replicate n pk = List.replicate (n + 1) pk := by
        simp [List.replicate_succ]
      rw [this]
    · intro k hk
      rw [h3 k hk, mapGet_skip _ _ (Ne.symm hk)]

/-- C10: index entries are not de-duplicated on add — `n + 1` fresh
insertions of the same value through `write_index` leave the entry at that
index key holding `pk` exactly `n + 1` times (once appended per call,
without any membership check), and a single subsequent removal (an update to
a value with different index bytes) filters out all occurrences of `pk` at
once, leaving the old entry empty and the new entry holding `pk` once. -/
theorem index_add_accumulates_duplicates {T : Type} (idx : Index T) (pk : Bytes)
    (v w : T) (s0 : StoreState) (n : Nat)
    (hv : mapGet ( calc_key idx v) s0.data = none)
    (hw : mapGet ( calc_key idx w) s0.data = none)
    (hne : idx.action v ≠ idx.action w) :
    ∃ sn sf,
      addTimes idx pk v (n + 1) s0 = (.ok (), sn)
      ∧ entryAt ( calc_key idx v) sn = some ⟨ List.replicate (n + 1) pk⟩
      ∧ write_index idx pk (some v) w sn = (.ok (), sf)
      ∧ entryAt ( calc_key idx v) sf = some ⟨[]⟩
      ∧ entryAt ( calc_key idx w) sf = some ⟨[pk]⟩ := by
  have hk : calc_key idx v ≠ calc_key idx w := calc_key_ne hne
  have hadd0 := add_key_fresh ( calc_key idx v) pk s0 hv
  obtain ⟨sn, h1, h2, h3⟩ := addTimes_grow idx pk v n
    ⟨( calc_key idx v, encodeRefs [pk]) :: s0.data, s0.reads + 1, s0.writes + 1⟩
    [pk] (mapGet_head _ _ _)
  have hrefs : ([pk] ++ List.replicate n pk) = List.replicate (n + 1) pk := by
    simp [List.replicate_succ]
  rw [hrefs] at h2
  have hwn : mapGet ( calc_key idx w) sn.data = none := by
    rw [h3 _ hk.symm, mapGet_skip _ _ hk]
    exact hw
  have hrm := remove_key_existing ( calc_key idx v) pk (List.replicate (n + 1) pk) sn h2
  rw [filter_ne_replicate] at hrm
  have hgetw : mapGet ( calc_key idx w)
      (( calc_key idx v, encodeRefs []) :: sn.data) = none := by
    rw [mapGet_skip _ _ hk]
    exact hwn
  have haddw := add_key_fresh ( calc_key idx w) pk
    ⟨( calc_key idx v, encodeRefs []) :: sn.data, sn.reads + 1, sn.writes + 1⟩ hgetw
  refine ⟨sn,
    ⟨( calc_key idx w, encodeRefs [pk]) :: ( calc_key idx v, encodeRefs []) :: sn.data,
      sn.reads + 2, sn.writes + 2⟩, ?_, ?_, ?_, ?_, ?_⟩
  · show (match write_index idx pk none v s0 with
      | (.ok _, s1) => addTimes idx pk v n s1
      | r => r) = (.ok (), sn)
    rw [write_index_none_eq, hadd0]
    exact h1
  · simp [entryAt, h2, decodeRefs_encodeRefs]
  · rw [write_index_some_ne idx pk v w _ hk, hrm]
    exact haddw
  · simp [entryAt, mapGet_skip _ _ hk.symm, mapGet_head, decodeRefs_encodeRefs]
  · simp [entryAt, mapGet_head, decodeRefs_encodeRefs]

/-- Witness for C10: the duplicate-accumulation theorem applies to a concrete
identity index on the empty store with two insertions (`n = 1`). -/
theorem index_add_accumulates_duplicates_witness :
    ∃ sn sf,
      addTimes (⟨[0, 3], fun x => x⟩ : Index Bytes) [7] [2] 2 emptyStore = (.ok (), sn)
      ∧ entryAt [0, 3, 2] sn = some ⟨ List.replicate 2 [7]⟩
      ∧ write_index (⟨[0, 3], fun x => x⟩ : Index Bytes) [7] (some [2]) [3] sn = (.ok (), sf)
      ∧ entryAt [0, 3, 2] sf = some ⟨[]⟩
      ∧ entryAt [0, 3, 3] sf = some ⟨[[7]]⟩ :=
  index_add_accumulates_duplicates ⟨[0, 3], fun x => x⟩ [7] [2] [3] emptyStore 1
    rfl rfl (by decide)

/-- C7: `update(k, f)` on an absent key fails with the NotFound-class error
and performs no write (only the one failed read is counted, data and write
counter unchanged); on a present key it stores exactly what
`save(k, f(load(k)))` stores — one read then one write of the new
serialization at the same flat key — and returns that value; and when `f`
fails, its error is returned and the store data (hence the value at `k`) is
byte-identical to before the call. -/
theorem bucket_update_semantics {T : Type} (c : Codec T) (ns key : Bytes)
    (f : T → Except Fail T) (s : StoreState) (p : Bytes)
    (hp : key_prefix ns = .ok p) :
    ( mapGet (p ++ key) s.data = none →
        bucketUpdate c ns key f s
          = (.error (.notFound c.kind), { s with reads := s.reads + 1 }))
    ∧ (∀ bz v w bw, mapGet (p ++ key) s.data = some bz → c.deser bz = .ok v →
        f v = .ok w → c.ser w = .ok bw →
        bucketUpdate c ns key f s = (.ok w,
          { data := (p ++ key, bw) :: s.data, reads := s.reads + 1, writes := s.writes + 1 }))
    ∧ (∀ bz v e, mapGet (p ++ key) s.data = some bz → c.deser bz = .ok v →
        f v = .error e →
        bucketUpdate c ns key f s = (.error e, { s with reads := s.reads + 1 })) := by
  refine ⟨?_, ?_, ?_⟩
  · intro habs
    simp [bucketUpdate, bucketLoad, hp, get_with_prefix, sget, habs, must_deserialize]
  · intro bz v w bw hsome hdeser hf hser
    simp [bucketUpdate, bucketLoad, hp, get_with_prefix, sget, hsome, must_deserialize,
      hdeser, hf, bucketSave, hser, set_with_prefix, sset]
  · intro bz v e hsome hdeser hf
    simp [bucketUpdate, bucketLoad, hp, get_with_prefix, sget, hsome, must_deserialize,
      hdeser, hf]

/-- Witness for C7: the update theorem applies to the `IndexEntry` codec on
the empty store, where the key is absent. -/
theorem bucket_update_semantics_witness :
    bucketUpdate entryCodec [100] [7] (fun e => .ok e) emptyStore
      = (.error (.notFound "IndexEntry"), ⟨[], 1, 0⟩) :=
  (bucket_update_semantics entryCodec [100] [7] (fun e => .ok e) emptyStore
    [0, 1, 100] (by decide)).1 rfl

/-- C9: namespaces are isolated and round-trip.  After `save(ns, k, v)` (with
the codec round-tripping `v`), `load(ns, k)` returns `v`; and for any other
namespace `ns2` (including prefix pairs like "dat"/"data") at which the store
holds nothing, `load(ns2, k)` fails with the NotFound-class error and
`may_load(ns2, k)` returns `None` — the write under `ns` is not observable
under `ns2`. -/
theorem bucket_namespace_isolation {T : Type} (c : Codec T) (ns ns2 key : Bytes) (v : T)
    (s : StoreState) (p p2 bz : Bytes)
    (hp : key_prefix ns = .ok p) (hp2 : key_prefix ns2 = .ok p2)
    (hne : ns ≠ ns2) (hser : c.ser v = .ok bz) (hdeser : c.deser bz = .ok v)
    (habs : mapGet (p2 ++ key) s.data = none) :
    ∃ s1,
      bucketSave c ns key v s = (.ok (), s1)
      ∧ (bucketLoad c ns key s1).1 = .ok v
      ∧ (bucketLoad c ns2 key s1).1 = .error (.notFound c.kind)
      ∧ (bucketMayLoad c ns2 key s1).1 = .ok none := by
  have hkne : p ++ key ≠ p2 ++ key := key_prefix_append_ne key hp hp2 hne
  refine ⟨⟨(p ++ key, bz) :: s.data, s.reads, s.writes + 1⟩, ?_, ?_, ?_, ?_⟩
  · simp [bucketSave, hp, hser, set_with_prefix, sset]
  · simp [bucketLoad, hp, get_with_prefix, sget, mapGet_head, must_deserialize, hdeser]
  · simp [bucketLoad, hp2, get_with_prefix, sget, mapGet_skip _ _ hkne, habs,
      must_deserialize]
  · simp [bucketMayLoad, hp2, get_with_prefix, sget, mapGet_skip _ _ hkne, habs,
      may_deserialize]

/-- Witness for C9: the isolation theorem applies to the `IndexEntry` codec
with namespaces `[1]` and `[2]` on the empty store. -/
theorem bucket_namespace_isolation_witness :
    ∃ s1,
      bucketSave entryCodec [1] [9] ⟨[[5]]⟩ emptyStore = (.ok (), s1)
      ∧ (bucketLoad entryCodec [1] [9] s1).1 = .ok ⟨[[5]]⟩
      ∧ (bucketLoad entryCodec [2] [9] s1).1 = .error (.notFound "IndexEntry")
      ∧ (bucketMayLoad entryCodec [2] [9] s1).1 = .ok none :=
  bucket_namespace_isolation entryCodec [1] [2] [9] ⟨[[5]]⟩ emptyStore
    [0, 1, 1] [0, 1, 2] [1, 5] (by decide) (by decide) (by decide) (by decide)
    (by decide) rfl
